import Mathlib

/-!
# WebSocket transport binding (`src/transport/ws/websocket.c`)

A shallow embedding of the endpoint / pipe state machine and of the header
option parser of the WebSocket transport, followed by theorems about them.

Conventions of the embedding.

* A C string is the list of its characters before the terminating NUL.  A
  pointer into a string buffer is the suffix of the buffer that starts at the
  pointer, so `*p == 0` reads as "the suffix is empty".
* A caller operation (`nni_aio *`), a WebSocket session (`nni_ws *`) and a
  message (`nni_msg *`) are identified by natural numbers.
* Calls into collaborators that live outside the file (completion of an
  operation, release of a session, issuing the internal operations) are
  recorded, in program order, as a list of `Effect`s.
* The mutex of an endpoint or pipe is held for the whole body of every
  function modelled here, so each function is one atomic state transition.
* Outcomes that the environment decides (whether an allocation succeeds,
  whether `nni_aio_start` accepts an operation, the result of an internal
  operation) are explicit arguments.
-/

namespace Websocket

/-! ## Constants from the public headers -/

/-- Modelled from the spec: the error code `NNG_ENOMEM` (OutOfMemory) of `nng.h`,
which is not under `src/`; only that it is non-zero matters. -/
def NNG_ENOMEM : Nat := 2

/-- Modelled from the spec: the error code `NNG_EINVAL` (InvalidArgument) of
`nng.h`, which is not under `src/`; only that it is non-zero matters. -/
def NNG_EINVAL : Nat := 3

/-- Modelled from the spec: the error code `NNG_ECANCELED` of `nng.h`, which is
not under `src/`; used only as a sample cancellation code. -/
def NNG_ECANCELED : Nat := 20

/-- Modelled from the spec: the error code `NNG_EREADONLY` (ReadOnly) of `nng.h`,
which is not under `src/`; only that it is non-zero matters. -/
def NNG_EREADONLY : Nat := 24

/-- The string terminator. -/
def NUL : Char := Char.ofNat 0

/-- Endpoint mode, the field `mode` of `ws_ep` and `ws_pipe`
(`NNI_EP_MODE_DIAL` or `NNI_EP_MODE_LISTEN`). -/
inductive ep_mode where
  | NNI_EP_MODE_DIAL
  | NNI_EP_MODE_LISTEN
deriving DecidableEq, Repr

/-! ## Data model -/

/-- The struct `ws_hdr`: one header, name and value (the list node is the
position in the list that holds it). -/
structure ws_hdr where
  name : List Char
  value : List Char
deriving DecidableEq, Repr

/-- The struct `ws_ep`.  `aios` is the queue of pending caller operations,
oldest first; `headers` the header list.  The fields `addr`, `protoname`,
`mtx`, `connaio`, `accaio`, `listener`, `dialer` and `tls` are handles that no
modelled function inspects. -/
structure ws_ep where
  mode : ep_mode
  lproto : Nat
  rproto : Nat
  rcvmax : Nat
  aios : List Nat
  headers : List ws_hdr
deriving DecidableEq, Repr

/-- The struct `ws_pipe`.  `user_txaio` / `user_rxaio` are the outstanding
caller operations (`none` is `NULL`); `ws` is the session. -/
structure ws_pipe where
  mode : ep_mode
  rcvmax : Nat
  closed : Bool
  rproto : Nat
  lproto : Nat
  user_txaio : Option Nat
  user_rxaio : Option Nat
  ws : Nat
deriving DecidableEq, Repr

/-- The internal operations: `txaio` and `rxaio` of a pipe, `connaio` and
`accaio` of an endpoint. -/
inductive internal_aio where
  | txaio
  | rxaio
  | connaio
  | accaio
deriving DecidableEq, Repr

/-- Calls into collaborators, recorded in program order. -/
inductive Effect where
  /-- The call `nni_aio_finish_error(aio, rv)`. -/
  | aio_finish_error (aio : Nat) (rv : Nat)
  /-- The call `nni_aio_finish_pipe(aio, p)`. -/
  | aio_finish_pipe (aio : Nat) (p : ws_pipe)
  /-- The call `nni_aio_finish_msg(aio, msg)`. -/
  | aio_finish_msg (aio : Nat) (msg : Nat)
  /-- The call `nni_aio_finish(aio, 0, 0)`. -/
  | aio_finish (aio : Nat)
  /-- The call `nni_msg_free(msg)`. -/
  | msg_free (msg : Nat)
  /-- The call `nni_ws_fini(ws)`. -/
  | ws_fini (ws : Nat)
  /-- The call `nni_ws_close(ws)`. -/
  | ws_close (ws : Nat)
  /-- The call `nni_ws_recv_msg(p->ws, p->rxaio)`. -/
  | ws_recv_msg (ws : Nat)
  /-- The call `nni_ws_send_msg(p->ws, p->txaio)` with the message moved onto `txaio`. -/
  | ws_send_msg (ws : Nat) (msg : Nat)
  /-- The call `nni_aio_cancel(a, rv)` on one of the internal operations. -/
  | aio_cancel (a : internal_aio) (rv : Nat)
  /-- The call `nni_ws_listener_accept(ep->listener, ep->accaio)`. -/
  | listener_accept
  /-- The call `nni_ws_dialer_dial(ep->dialer, ep->connaio)`. -/
  | dialer_dial
  /-- The call `nni_ws_dialer_header(ep->dialer, name, value)`. -/
  | dialer_header (name : List Char) (value : List Char)
deriving DecidableEq, Repr

/-! ## Header option parsing (`ws_ep_setopt_headers`) -/

/-- Modelled from the spec: `nni_strnlen(v, sz)` of the core library, which is
not under `src/`: the number of characters before the first NUL among the
first `sz` bytes at `v`, or `sz` when there is none.  Bytes past the end of the
modelled buffer read as NUL. -/
def nni_strnlen : List Char → Nat → Nat
  | _, 0 => 0
  | [], _ + 1 => 0
  | c :: cs, n + 1 => if c = NUL then 0 else nni_strnlen cs n + 1

/-- Modelled from the spec: `nni_strdup(v)` of the core library, which is not
under `src/`: a copy of the string at `v`, that is of the characters before the
first NUL.  Whether the allocation succeeds is decided by the caller's
allocation oracle. -/
def nni_strdup : List Char → List Char
  | [] => []
  | c :: cs => if c = NUL then [] else c :: nni_strdup cs

/-- The call `strchr(name, c)` followed by `*value = 0; value++`: `none` when
`c` does not occur, else the string `name` now denotes (the characters before
the first `c`) and the pointer just past that `c`. -/
def strchr (c : Char) : List Char → Option (List Char × List Char)
  | [] => none
  | x :: xs =>
    if x = c then some ([], xs)
    else match strchr c xs with
      | none => none
      | some (pre, post) => some (x :: pre, post)

/-- The loop `while (*value == ' ') value++`. -/
def skip_spaces : List Char → List Char
  | [] => []
  | x :: xs => if x = ' ' then skip_spaces xs else x :: xs

/-- The loop `while ((*nl != 0) && (*nl != CR) && (*nl != LF)) nl++`, started at
`value`: the characters passed over (the string that `value` denotes once the
line end is overwritten with NUL) and the final `nl`. -/
def scan_eol : List Char → List Char × List Char
  | [] => ([], [])
  | x :: xs =>
    if x = '\r' ∨ x = '\n' then ([], x :: xs)
    else ((x :: (scan_eol xs).1), (scan_eol xs).2)

/-- The loop `while ((*nl == CR) || (*nl == LF)) { *nl = 0; nl++; }`. -/
def skip_eol : List Char → List Char
  | [] => []
  | x :: xs => if x = '\r' ∨ x = '\n' then skip_eol xs else x :: xs

/-- The `for (;;)` loop of `ws_ep_setopt_headers`.  `alloc i` tells whether the
`i`-th allocation of the call succeeds and `k` is the index of the next
allocation; `name` is the pointer `name`, `l` the local list built so far.
The result is `none` when `fuel` iterations did not reach the `break`,
`some (Except.error rv)` for the `goto done` with `rv`, and
`some (Except.ok l)` for the list at the `break`. -/
def hdr_loop (alloc : Nat → Bool) :
    Nat → Nat → List Char → List ws_hdr → Option (Except Nat (List ws_hdr))
  | 0, _, _, _ => none
  | fuel + 1, k, name, l =>
    match strchr ':' name with
    | none => some (Except.ok l)
    | some (nm, rest) =>
      let value := skip_spaces rest
      let val := (scan_eol value).1
      let nl := skip_eol (scan_eol value).2
      if alloc k = false then some (Except.error NNG_ENOMEM)
      else if alloc (k + 1) = false ∨ alloc (k + 2) = false then
        some (Except.error NNG_ENOMEM)
      else hdr_loop alloc fuel (k + 3) nl (l ++ [⟨nm, val⟩])

/-- The function `ws_ep_setopt_headers(ep, v, sz)`.  `ep = none` is the `NULL`
endpoint.  Allocation 0 is `nni_strdup(v)`; the loop then allocates, for each
entry, the struct, the name and the value.  On success the first `while` loop
empties `ep->headers` and the second moves the entries of `l` to it in order,
so the header list becomes `l`.  Returns the return value and the endpoint
afterwards; `none` only if the loop did not finish within its iteration budget,
one more than the length of the string, which cannot happen
(`ws_ep_setopt_headers_returns`). -/
def ws_ep_setopt_headers (ep : Option ws_ep) (v : List Char) (alloc : Nat → Bool) :
    Option (Nat × Option ws_ep) :=
  match ep with
  | none => some (0, none)
  | some e =>
    if alloc 0 = false then some (NNG_ENOMEM, some e)
    else
      let dupstr := nni_strdup v
      match hdr_loop alloc (dupstr.length + 1) 1 dupstr [] with
      | none => none
      | some (Except.error rv) => some (rv, some e)
      | some (Except.ok l) => some (0, some { e with headers := l })

/-- The function `ws_ep_setopt_reqhdrs(arg, v, sz)`. -/
def ws_ep_setopt_reqhdrs (ep : Option ws_ep) (v : List Char) (sz : Nat)
    (alloc : Nat → Bool) : Option (Nat × Option ws_ep) :=
  if nni_strnlen v sz ≥ sz then some (NNG_EINVAL, ep)
  else match ep with
    | some e =>
      if e.mode = ep_mode.NNI_EP_MODE_LISTEN then some (NNG_EREADONLY, ep)
      else ws_ep_setopt_headers ep v alloc
    | none => ws_ep_setopt_headers ep v alloc

/-- The function `ws_ep_setopt_reshdrs(arg, v, sz)`. -/
def ws_ep_setopt_reshdrs (ep : Option ws_ep) (v : List Char) (sz : Nat)
    (alloc : Nat → Bool) : Option (Nat × Option ws_ep) :=
  if nni_strnlen v sz ≥ sz then some (NNG_EINVAL, ep)
  else match ep with
    | some e =>
      if e.mode = ep_mode.NNI_EP_MODE_DIAL then some (NNG_EREADONLY, ep)
      else ws_ep_setopt_headers ep v alloc
    | none => ws_ep_setopt_headers ep v alloc

/-- An allocation oracle under which every allocation succeeds. -/
def alloc_ok : Nat → Bool := fun _ => true

/-- The header list that the loop of `ws_ep_setopt_headers` builds from the
string at `v` when no allocation fails.  The fallback is never taken
(`hdr_loop_alloc_ok`). -/
def parsed_headers (v : List Char) : List ws_hdr :=
  match hdr_loop alloc_ok ((nni_strdup v).length + 1) 1 (nni_strdup v) [] with
  | some (Except.ok l) => l
  | _ => []

/-! ## Pipes -/

/-- The function `ws_pipe_send_cb`; `result` is `nni_aio_result(p->txaio)`. -/
def ws_pipe_send_cb (p : ws_pipe) (result : Nat) : ws_pipe × List Effect :=
  let uaio := p.user_txaio
  let p1 := { p with user_txaio := none }
  match uaio with
  | some u =>
    if result ≠ 0 then (p1, [Effect.aio_finish_error u result])
    else (p1, [Effect.aio_finish u])
  | none => (p1, [])

/-- The function `ws_pipe_recv_cb`; `result` is `nni_aio_result(p->rxaio)` and
`msg` is `nni_aio_get_msg(p->rxaio)`, read only when `result` is 0. -/
def ws_pipe_recv_cb (p : ws_pipe) (result : Nat) (msg : Nat) : ws_pipe × List Effect :=
  let uaio := p.user_rxaio
  let p1 := { p with user_rxaio := none }
  if result ≠ 0 then
    match uaio with
    | some u => (p1, [Effect.aio_finish_error u result])
    | none => (p1, [])
  else
    match uaio with
    | some u => (p1, [Effect.aio_finish_msg u msg])
    | none => (p1, [Effect.msg_free msg])

/-- The function `ws_pipe_recv_cancel(aio, rv)`. -/
def ws_pipe_recv_cancel (p : ws_pipe) (aio : Nat) (rv : Nat) : ws_pipe × List Effect :=
  if p.user_rxaio ≠ some aio then (p, [])
  else (p, [Effect.aio_cancel internal_aio.rxaio rv])

/-- The function `ws_pipe_recv(arg, aio)`; `start_rv` is the value of
`nni_aio_start(aio, ws_pipe_recv_cancel, p)`. -/
def ws_pipe_recv (p : ws_pipe) (aio : Nat) (start_rv : Nat) : ws_pipe × List Effect :=
  if start_rv ≠ 0 then (p, [])
  else ({ p with user_rxaio := some aio }, [Effect.ws_recv_msg p.ws])

/-- The function `ws_pipe_send_cancel(aio, rv)`. -/
def ws_pipe_send_cancel (p : ws_pipe) (aio : Nat) (rv : Nat) : ws_pipe × List Effect :=
  if p.user_txaio ≠ some aio then (p, [])
  else (p, [Effect.aio_cancel internal_aio.txaio rv])

/-- The function `ws_pipe_send(arg, aio)`; `msg` is `nni_aio_get_msg(aio)`. -/
def ws_pipe_send (p : ws_pipe) (aio : Nat) (start_rv : Nat) (msg : Nat) :
    ws_pipe × List Effect :=
  if start_rv ≠ 0 then (p, [])
  else ({ p with user_txaio := some aio }, [Effect.ws_send_msg p.ws msg])

/-- What the environment decides during `ws_pipe_init`: whether
`NNI_ALLOC_STRUCT(p)` succeeds and the values of the two `nni_aio_init` calls. -/
structure pipe_env where
  alloc_struct : Bool
  txaio_init : Nat
  rxaio_init : Nat
deriving DecidableEq, Repr

/-- An environment in which pipe construction succeeds. -/
def pipe_env_ok : pipe_env := ⟨true, 0, 0⟩

/-- The call `nni_list_first(&ep->aios)`. -/
def nni_list_first (l : List Nat) : Option Nat := l.head?

/-- The call `nni_aio_list_remove(aio)` on the queue that holds `aio`. -/
def nni_aio_list_remove (l : List Nat) (aio : Nat) : List Nat := l.erase aio

/-- The function `ws_pipe_init(pipep, ep, ws)`: the return value, the pipe
stored through `pipep` (on success), the endpoint afterwards and the calls
made.  On the failure paths `ws_pipe_fini(p)` runs with `p->ws` still `NULL`, so
it releases no session. -/
def ws_pipe_init (env : pipe_env) (ep : ws_ep) (ws : Nat) :
    Nat × Option ws_pipe × ws_ep × List Effect :=
  if env.alloc_struct = false then (NNG_ENOMEM, none, ep, [])
  else if env.txaio_init ≠ 0 then (env.txaio_init, none, ep, [])
  else if env.rxaio_init ≠ 0 then (env.rxaio_init, none, ep, [])
  else
    let p : ws_pipe :=
      { mode := ep.mode, rcvmax := ep.rcvmax, closed := false, rproto := ep.rproto,
        lproto := ep.lproto, user_txaio := none, user_rxaio := none, ws := ws }
    match nni_list_first ep.aios with
    | some aio =>
      (0, some p, { ep with aios := nni_aio_list_remove ep.aios aio },
        [Effect.aio_finish_pipe aio p])
    | none => (0, some p, ep, [])

/-! ## Endpoints -/

/-- The state `ws_ep_init` leaves in `*epp` on success: empty queue and header
list, zeroed `rcvmax`. -/
def ws_ep_init (mode : ep_mode) (lproto rproto : Nat) : ws_ep :=
  { mode := mode, lproto := lproto, rproto := rproto, rcvmax := 0, aios := [], headers := [] }

/-- The function `ws_ep_cancel(aio, rv)`; `nni_aio_list_active(aio)` holds when
`aio` is on the endpoint's queue. -/
def ws_ep_cancel (ep : ws_ep) (aio : Nat) (rv : Nat) : ws_ep × List Effect :=
  if aio ∈ ep.aios then
    ({ ep with aios := nni_aio_list_remove ep.aios aio }, [Effect.aio_finish_error aio rv])
  else (ep, [])

/-- The function `ws_ep_accept(arg, aio)`; `start_rv` is the value of
`nni_aio_start(aio, ws_ep_cancel, ep)`. -/
def ws_ep_accept (ep : ws_ep) (aio : Nat) (start_rv : Nat) : ws_ep × List Effect :=
  if start_rv ≠ 0 then (ep, [])
  else
    let ep1 := { ep with aios := ep.aios ++ [aio] }
    if some aio = nni_list_first ep1.aios then (ep1, [Effect.listener_accept])
    else (ep1, [])

/-- The `NNI_LIST_FOREACH` loop of `ws_ep_connect` over the headers; `hdr_rv h`
is the value of `nni_ws_dialer_header` for `h`.  Returns the first non-zero
value (0 if none) and the calls made. -/
def connect_headers (hdr_rv : ws_hdr → Nat) : List ws_hdr → Nat × List Effect
  | [] => (0, [])
  | h :: hs =>
    if hdr_rv h ≠ 0 then (hdr_rv h, [Effect.dialer_header h.name h.value])
    else
      ((connect_headers hdr_rv hs).1,
        Effect.dialer_header h.name h.value :: (connect_headers hdr_rv hs).2)

/-- The function `ws_ep_connect(arg, aio)`; `none` is a failed
`NNI_ASSERT(nni_list_empty(&ep->aios))`. -/
def ws_ep_connect (ep : ws_ep) (aio : Nat) (start_rv : Nat) (hdr_rv : ws_hdr → Nat) :
    Option (ws_ep × List Effect) :=
  if ep.aios ≠ [] then none
  else if start_rv ≠ 0 then some (ep, [])
  else
    let r := connect_headers hdr_rv ep.headers
    if r.1 ≠ 0 then some (ep, r.2 ++ [Effect.aio_finish_error aio r.1])
    else some ({ ep with aios := ep.aios ++ [aio] }, r.2 ++ [Effect.dialer_dial])

/-- The function `ws_ep_conn_cb`; `result` is `nni_aio_result(ep->connaio)` and
`ws` is `nni_aio_get_pipe(ep->connaio)`, a session (never `NULL`) that is read
only when `result` is 0, so the local `ws` is non-`NULL` exactly then.  `none`
is a failed `NNI_ASSERT(nni_list_empty(&ep->aios))`. -/
def ws_ep_conn_cb (env : pipe_env) (ep : ws_ep) (result : Nat) (ws : Nat) :
    Option (ws_ep × List Effect) :=
  match nni_list_first ep.aios with
  | none => if result = 0 then some (ep, [Effect.ws_fini ws]) else some (ep, [])
  | some uaio =>
    let ep1 := { ep with aios := nni_aio_list_remove ep.aios uaio }
    if ep1.aios ≠ [] then none
    else if result ≠ 0 then some (ep1, [Effect.aio_finish_error uaio result])
    else
      match ws_pipe_init env ep1 ws with
      | (rv, some p, ep2, effs) =>
        if rv ≠ 0 then some (ep2, effs ++ [Effect.ws_fini ws, Effect.aio_finish_error uaio rv])
        else some (ep2, effs ++ [Effect.aio_finish_pipe uaio p])
      | (rv, none, ep2, effs) =>
        some (ep2, effs ++ [Effect.ws_fini ws, Effect.aio_finish_error uaio rv])

/-- The re-arm at the end of `ws_ep_acc_cb`:
`if (!nni_list_empty(&ep->aios)) nni_ws_listener_accept(ep->listener, aaio)`. -/
def acc_rearm (ep : ws_ep) : List Effect :=
  if ep.aios ≠ [] then [Effect.listener_accept] else []

/-- The function `ws_ep_acc_cb`; `result` is `nni_aio_result(ep->accaio)` and
`ws` is `nni_aio_get_pipe(ep->accaio)`, read only when `result` is 0. -/
def ws_ep_acc_cb (env : pipe_env) (ep : ws_ep) (result : Nat) (ws : Nat) :
    ws_ep × List Effect :=
  let uaio := nni_list_first ep.aios
  let r : ws_ep × List Effect :=
    if result ≠ 0 then
      match uaio with
      | some u =>
        ({ ep with aios := nni_aio_list_remove ep.aios u }, [Effect.aio_finish_error u result])
      | none => (ep, [])
    else
      match uaio with
      | some u =>
        let ep1 := { ep with aios := nni_aio_list_remove ep.aios u }
        match ws_pipe_init env ep1 ws with
        | (rv, some p, ep2, effs) =>
          if rv ≠ 0 then (ep2, effs ++ [Effect.ws_close ws, Effect.aio_finish_error u rv])
          else (ep2, effs ++ [Effect.aio_finish_pipe u p])
        | (rv, none, ep2, effs) =>
          (ep2, effs ++ [Effect.ws_close ws, Effect.aio_finish_error u rv])
      | none => (ep, [])
  (r.1, r.2 ++ acc_rearm r.1)

/-! ## An endpoint together with its internal operations -/

/-- An endpoint and, for each of its two internal operations, how many times
it has been issued to the listener / dialer without having completed yet.  The
count is kept by the operation framework, not by `ws_ep`; a value above 1
means the operation was issued again while still in flight. -/
structure ep_state where
  ep : ws_ep
  acc_armed : Nat
  conn_armed : Nat
deriving DecidableEq, Repr

/-- What can happen to an endpoint: the framework calls `ws_ep_accept` or
`ws_ep_connect`, a caller cancels an operation (the framework then calls the
registered `ws_ep_cancel`), or an internal operation completes and its
callback runs. -/
inductive ep_event where
  | accept (aio : Nat) (start_rv : Nat)
  | connect (aio : Nat) (start_rv : Nat)
  | cancel (aio : Nat) (rv : Nat)
  | acc_done (env : pipe_env) (result : Nat) (ws : Nat)
  | conn_done (env : pipe_env) (result : Nat) (ws : Nat)

/-- The state after a function ran: the new endpoint, and the issue counts
raised by the `listener_accept` / `dialer_dial` calls it made. -/
def ep_state.after (acc conn : Nat) (r : ws_ep × List Effect) : ep_state :=
  { ep := r.1,
    acc_armed := acc + r.2.count Effect.listener_accept,
    conn_armed := conn + r.2.count Effect.dialer_dial }

/-- One event.  `none` when the event cannot happen (a completion of an
operation that is not in flight) or an `NNI_ASSERT` fails.  `ws_ep_connect` is
run with a dialer that accepts every header. -/
def ep_step (s : ep_state) : ep_event → Option ep_state
  | ep_event.accept aio start_rv =>
    some (ep_state.after s.acc_armed s.conn_armed (ws_ep_accept s.ep aio start_rv))
  | ep_event.connect aio start_rv =>
    match ws_ep_connect s.ep aio start_rv (fun _ => 0) with
    | some r => some (ep_state.after s.acc_armed s.conn_armed r)
    | none => none
  | ep_event.cancel aio rv =>
    some (ep_state.after s.acc_armed s.conn_armed (ws_ep_cancel s.ep aio rv))
  | ep_event.acc_done env result ws =>
    if s.acc_armed = 0 then none
    else some (ep_state.after (s.acc_armed - 1) s.conn_armed (ws_ep_acc_cb env s.ep result ws))
  | ep_event.conn_done env result ws =>
    if s.conn_armed = 0 then none
    else
      match ws_ep_conn_cb env s.ep result ws with
      | some r => some (ep_state.after s.acc_armed (s.conn_armed - 1) r)
      | none => none

/-- A sequence of events, oldest first. -/
def ep_run : ep_state → List ep_event → Option ep_state
  | s, [] => some s
  | s, e :: es =>
    match ep_step s e with
    | some s1 => ep_run s1 es
    | none => none

/-- A freshly created endpoint: nothing queued, nothing in flight. -/
def ep_fresh (mode : ep_mode) (lproto rproto : Nat) : ep_state :=
  { ep := ws_ep_init mode lproto rproto, acc_armed := 0, conn_armed := 0 }

/-! ## Header strings, as the specification describes them -/

/-- A line break: CR, LF or CRLF. -/
inductive line_break where
  | cr
  | lf
  | crlf
deriving DecidableEq, Repr

/-- The characters of a line break. -/
def line_break.chars : line_break → List Char
  | line_break.cr => ['\r']
  | line_break.lf => ['\n']
  | line_break.crlf => ['\r', '\n']

/-- The line `name: value`. -/
def header_line (name value : List Char) : List Char :=
  name ++ ':' :: ' ' :: value

/-- The lines `name: value` of the entries, each followed by its line break;
the line break of the last entry is present only when `trailing` is set. -/
def header_string (trailing : Bool) : List (List Char × List Char × line_break) → List Char
  | [] => []
  | [(n, v, b)] => header_line n v ++ (if trailing then b.chars else [])
  | (n, v, b) :: e :: es => header_line n v ++ b.chars ++ header_string trailing (e :: es)

/-- A header name without colon, CR or LF. -/
def wf_name (n : List Char) : Prop :=
  ':' ∉ n ∧ '\r' ∉ n ∧ '\n' ∉ n

/-- A header value without CR or LF that does not start with a space. -/
def wf_value (v : List Char) : Prop :=
  '\r' ∉ v ∧ '\n' ∉ v ∧ v.head? ≠ some ' '

instance (n : List Char) : Decidable (wf_name n) := by
  unfold wf_name
  infer_instance

instance (v : List Char) : Decidable (wf_value v) := by
  unfold wf_value
  infer_instance

/-- The header entries of a list of `(name, value, line break)` triples. -/
def entries_of (es : List (List Char × List Char × line_break)) : List ws_hdr :=
  es.map (fun e => ⟨e.1, e.2.1⟩)

/-- The pipe that `ws_pipe_init` builds for endpoint `ep` and session `ws`. -/
def pipe_of (ep : ws_ep) (ws : Nat) : ws_pipe :=
  { mode := ep.mode, rcvmax := ep.rcvmax, closed := false, rproto := ep.rproto,
    lproto := ep.lproto, user_txaio := none, user_rxaio := none, ws := ws }

/-! ## Lines of a header string, as the specification describes them -/

/-- The lines of a string, lines being delimited by CR, LF or CRLF, written
from the specification's words and independent of the parser.  `after_cr`
tells that the previous character was a CR, so that an LF here belongs to the
same line break. -/
def spec_lines_aux : Bool → List Char → List (List Char)
  | _, [] => [[]]
  | after_cr, c :: cs =>
    if c = '\r' then [] :: spec_lines_aux true cs
    else if c = '\n' then
      (if after_cr = true then spec_lines_aux false cs else [] :: spec_lines_aux false cs)
    else
      match spec_lines_aux false cs with
      | [] => [[c]]
      | ln :: lns => (c :: ln) :: lns

/-- The lines of a string. -/
def spec_lines (s : List Char) : List (List Char) :=
  spec_lines_aux false s

/-- Whether a line contains a colon. -/
def has_colon (ln : List Char) : Bool :=
  decide (':' ∈ ln)

/-- The entry of a line that contains a colon, in the specification's words:
split on the first colon, leading spaces after the colon trimmed. -/
def line_entry (ln : List Char) : ws_hdr :=
  { name := ln.takeWhile (fun c => c != ':'),
    value := ((ln.dropWhile (fun c => c != ':')).drop 1).dropWhile (fun c => c == ' ') }

/-- The header list the specification describes for a string: the entries of
the lines that precede the first line without a colon. -/
def claimed_headers (s : List Char) : List ws_hdr :=
  ((spec_lines s).takeWhile has_colon).map line_entry

/-- Drop one LF at the head of a string, if there is one. -/
def drop_lf : List Char → List Char
  | [] => []
  | d :: u => if d = '\n' then u else d :: u

/-- Drop the line break (CR, LF or CRLF) at the head of a string that starts
with one. -/
def one_break : List Char → List Char
  | [] => []
  | c :: t => if c = '\r' then drop_lf t else t

/-- A string whose first line has no colon while its second line has one. -/
def colonless_first : List Char := "foo\nbar: baz".toList

/-- A string whose first line has a colon and whose other two lines have none. -/
def colonless_tail : List Char := "a:  b c\r\nfoo\nbar".toList

/-! ## Sample states -/

/-- Two well-formed entries, the first followed by CRLF, the second by LF. -/
def sample_entries : List (List Char × List Char × line_break) :=
  [("Host".toList, "a b".toList, line_break.crlf), ("X".toList, "1:2".toList, line_break.lf)]

/-- A buffer of 32 bytes or more holding the header string of `sample_entries`,
its terminator and an unrelated byte. -/
def sample_buffer : List Char :=
  header_string true sample_entries ++ [NUL, 'z']

/-- A Dial endpoint with caller operation 5 queued. -/
def dial_ep : ws_ep :=
  { ws_ep_init ep_mode.NNI_EP_MODE_DIAL 16 17 with aios := [5] }

/-- A Listen endpoint with nothing queued. -/
def listen_ep : ws_ep := ws_ep_init ep_mode.NNI_EP_MODE_LISTEN 16 17

/-! ## Theorems -/

/-! ### The header loop: termination and allocation -/

theorem strchr_length (c : Char) :
    ∀ (s pre post : List Char), strchr c s = some (pre, post) → post.length < s.length
  | [], _, _, h => by simp [strchr] at h
  | x :: xs, pre, post, h => by
    unfold strchr at h
    by_cases hx : x = c
    · simp [hx] at h
      simp [← h.2]
    · simp only [hx, if_false] at h
      cases hr : strchr c xs with
      | none => simp [hr] at h
      | some pq =>
        obtain ⟨p1, q1⟩ := pq
        simp only [hr] at h
        have hlt := strchr_length c xs p1 q1 hr
        have hq : q1 = post := by
          have := Option.some.inj h
          exact (Prod.mk.inj this).2
        subst hq
        simp only [List.length_cons]
        omega

theorem skip_spaces_length : ∀ s : List Char, (skip_spaces s).length ≤ s.length
  | [] => by simp [skip_spaces]
  | x :: xs => by
    unfold skip_spaces
    by_cases hx : x = ' '
    · simp only [hx, if_true, List.length_cons]
      have := skip_spaces_length xs
      omega
    · simp [hx]

theorem scan_eol_length : ∀ s : List Char, (scan_eol s).2.length ≤ s.length
  | [] => by simp [scan_eol]
  | x :: xs => by
    unfold scan_eol
    by_cases hx : x = '\r' ∨ x = '\n'
    · simp [hx]
    · simp only [hx, if_false, List.length_cons]
      have := scan_eol_length xs
      omega

theorem skip_eol_length : ∀ s : List Char, (skip_eol s).length ≤ s.length
  | [] => by simp [skip_eol]
  | x :: xs => by
    unfold skip_eol
    by_cases hx : x = '\r' ∨ x = '\n'
    · simp only [hx, if_true, List.length_cons]
      have := skip_eol_length xs
      omega
    · simp [hx]

/-- The pointer `name` of the next iteration is strictly further along. -/
theorem next_name_length (s pre post : List Char) (h : strchr ':' s = some (pre, post)) :
    (skip_eol (scan_eol (skip_spaces post)).2).length < s.length := by
  have h1 := strchr_length ':' s pre post h
  have h2 := skip_spaces_length post
  have h3 := scan_eol_length (skip_spaces post)
  have h4 := skip_eol_length (scan_eol (skip_spaces post)).2
  omega

/-- The loop reaches its `break` or a `goto done` within `length + 1` iterations. -/
theorem hdr_loop_total (alloc : Nat → Bool) :
    ∀ (fuel k : Nat) (s : List Char) (l : List ws_hdr), s.length < fuel →
      ∃ r, hdr_loop alloc fuel k s l = some r
  | 0, _, _, _, h => by omega
  | fuel + 1, k, s, l, h => by
    unfold hdr_loop
    cases hs : strchr ':' s with
    | none => exact ⟨_, rfl⟩
    | some pq =>
      obtain ⟨pre, post⟩ := pq
      simp only
      by_cases h0 : alloc k = false
      · exact ⟨Except.error NNG_ENOMEM, by simp [h0]⟩
      · by_cases h1 : alloc (k + 1) = false ∨ alloc (k + 2) = false
        · exact ⟨Except.error NNG_ENOMEM, by simp [h0, h1]⟩
        · have hlt := next_name_length s pre post hs
          obtain ⟨r, hr⟩ := hdr_loop_total alloc fuel (k + 3)
            (skip_eol (scan_eol (skip_spaces post)).2) (l ++ [⟨pre, (scan_eol (skip_spaces post)).1⟩])
            (by omega)
          exact ⟨r, by simp only [h0, h1, if_false]; exact hr⟩

/-- The only error the loop produces is `NNG_ENOMEM`. -/
theorem hdr_loop_error (alloc : Nat → Bool) :
    ∀ (fuel k : Nat) (s : List Char) (l : List ws_hdr) (rv : Nat),
      hdr_loop alloc fuel k s l = some (Except.error rv) → rv = NNG_ENOMEM
  | 0, _, _, _, _, h => by simp [hdr_loop] at h
  | fuel + 1, k, s, l, rv, h => by
    unfold hdr_loop at h
    cases hs : strchr ':' s with
    | none => simp [hs] at h
    | some pq =>
      obtain ⟨pre, post⟩ := pq
      simp only [hs] at h
      by_cases h0 : alloc k = false
      · simp only [h0, if_true] at h
        injection h with h
        injection h with h
        exact h.symm
      · by_cases h1 : alloc (k + 1) = false ∨ alloc (k + 2) = false
        · simp only [h0, h1, if_true, if_false] at h
          injection h with h
          injection h with h
          exact h.symm
        · simp only [h0, h1, if_false] at h
          exact hdr_loop_error alloc fuel _ _ _ rv h

/-- A list the loop builds under some allocation oracle is the list it builds
when no allocation fails. -/
theorem hdr_loop_ok_indep (alloc : Nat → Bool) :
    ∀ (fuel k k1 : Nat) (s : List Char) (l r : List ws_hdr),
      hdr_loop alloc fuel k s l = some (Except.ok r) →
      hdr_loop alloc_ok fuel k1 s l = some (Except.ok r)
  | 0, _, _, _, _, _, h => by simp [hdr_loop] at h
  | fuel + 1, k, k1, s, l, r, h => by
    unfold hdr_loop at h ⊢
    cases hs : strchr ':' s with
    | none => simpa [hs] using h
    | some pq =>
      obtain ⟨pre, post⟩ := pq
      simp only [hs] at h ⊢
      by_cases h0 : alloc k = false
      · simp [h0] at h
      · by_cases h1 : alloc (k + 1) = false ∨ alloc (k + 2) = false
        · simp only [h0, h1, if_true, if_false] at h
          injection h with h
          injection h
        · simp only [h0, h1, if_false] at h
          simp only [alloc_ok, Bool.true_eq_false, if_false, or_self]
          exact hdr_loop_ok_indep alloc fuel _ _ _ _ r h

/-- When no allocation fails the loop ends at its `break`. -/
theorem hdr_loop_alloc_ok :
    ∀ (fuel k : Nat) (s : List Char) (l : List ws_hdr), s.length < fuel →
      ∃ r, hdr_loop alloc_ok fuel k s l = some (Except.ok r) := by
  intro fuel k s l h
  obtain ⟨r, hr⟩ := hdr_loop_total alloc_ok fuel k s l h
  cases r with
  | ok r => exact ⟨r, hr⟩
  | error rv =>
    exfalso
    revert hr
    induction fuel generalizing k s l with
    | zero => omega
    | succ fuel ih =>
      intro hr
      unfold hdr_loop at hr
      cases hs : strchr ':' s with
      | none => simp [hs] at hr
      | some pq =>
        obtain ⟨pre, post⟩ := pq
        simp only [hs, alloc_ok, Bool.true_eq_false, if_false, or_self] at hr
        exact ih _ _ _ (by have := next_name_length s pre post hs; omega) hr

theorem parsed_headers_eq (v : List Char) (k : Nat) :
    hdr_loop alloc_ok ((nni_strdup v).length + 1) k (nni_strdup v) [] =
      some (Except.ok (parsed_headers v)) := by
  obtain ⟨r, hr⟩ := hdr_loop_alloc_ok ((nni_strdup v).length + 1) 1 (nni_strdup v) []
    (Nat.lt_succ_self _)
  have hk := hdr_loop_ok_indep alloc_ok _ 1 k _ _ _ hr
  rw [hk]
  simp [parsed_headers, hr]

/-! ### The header loop on one line -/

theorem strchr_append (c : Char) :
    ∀ (nm r : List Char), c ∉ nm → strchr c (nm ++ c :: r) = some (nm, r)
  | [], r, _ => by simp [strchr]
  | x :: xs, r, h => by
    have hx : x ≠ c := fun e => h (by simp [e])
    have hxs : c ∉ xs := fun e => h (by simp [e])
    simp [strchr, hx, strchr_append c xs r hxs]

theorem strchr_none (c : Char) : ∀ s : List Char, c ∉ s → strchr c s = none
  | [], _ => by simp [strchr]
  | x :: xs, h => by
    have hx : x ≠ c := fun e => h (by simp [e])
    have hxs : c ∉ xs := fun e => h (by simp [e])
    simp [strchr, hx, strchr_none c xs hxs]

theorem skip_spaces_eq_self : ∀ b : List Char, b.head? ≠ some ' ' → skip_spaces b = b
  | [], _ => by simp [skip_spaces]
  | x :: xs, h => by
    have hx : x ≠ ' ' := fun e => h (by simp [e])
    simp [skip_spaces, hx]

theorem skip_spaces_append :
    ∀ (a b : List Char), b.head? ≠ some ' ' → skip_spaces (a ++ b) = skip_spaces a ++ b
  | [], b, h => by simpa [skip_spaces] using skip_spaces_eq_self b h
  | x :: xs, b, h => by
    by_cases hx : x = ' '
    · simp [skip_spaces, hx, skip_spaces_append xs b h]
    · simp [skip_spaces, hx]

theorem mem_of_mem_skip_spaces : ∀ (a : List Char) (c : Char), c ∈ skip_spaces a → c ∈ a
  | [], c, h => by simp [skip_spaces] at h
  | x :: xs, c, h => by
    by_cases hx : x = ' '
    · simp only [skip_spaces, hx, if_true] at h
      exact List.mem_cons_of_mem _ (mem_of_mem_skip_spaces xs c h)
    · simpa [skip_spaces, hx] using h

theorem scan_eol_append :
    ∀ (a b : List Char), (∀ c ∈ a, c ≠ '\r' ∧ c ≠ '\n') →
      (∀ c t, b = c :: t → c = '\r' ∨ c = '\n') → scan_eol (a ++ b) = (a, b)
  | [], [], _, _ => by simp [scan_eol]
  | [], c :: t, _, hb => by
    have := hb c t rfl
    simp [scan_eol, this]
  | x :: xs, b, ha, hb => by
    have hx : ¬ (x = '\r' ∨ x = '\n') := by
      have := ha x (by simp)
      tauto
    have ih := scan_eol_append xs b (fun c hc => ha c (by simp [hc])) hb
    simp [scan_eol, hx, ih]

theorem skip_eol_append :
    ∀ (a b : List Char), (∀ c ∈ a, c = '\r' ∨ c = '\n') →
      (∀ c t, b = c :: t → ¬ (c = '\r' ∨ c = '\n')) → skip_eol (a ++ b) = b
  | [], [], _, _ => by simp [skip_eol]
  | [], c :: t, _, hb => by
    have := hb c t rfl
    simp [skip_eol, this]
  | x :: xs, b, ha, hb => by
    have hx : x = '\r' ∨ x = '\n' := ha x (by simp)
    have ih := skip_eol_append xs b (fun c hc => ha c (by simp [hc])) hb
    simp [skip_eol, hx, ih]

/-- One iteration of the loop on a first line `nm ++ ':' :: body` followed by
`r`, which is empty or starts with a line break: the iteration appends the
entry of the line and continues after all the line-break characters. -/
theorem hdr_loop_line (fuel k : Nat) (l : List ws_hdr) (nm body r : List Char)
    (hnm : ':' ∉ nm) (hbody : ∀ c ∈ body, c ≠ '\r' ∧ c ≠ '\n')
    (hr : ∀ c t, r = c :: t → c = '\r' ∨ c = '\n') :
    hdr_loop alloc_ok (fuel + 1) k (nm ++ ':' :: (body ++ r)) l =
      hdr_loop alloc_ok fuel (k + 3) (skip_eol r) (l ++ [⟨nm, skip_spaces body⟩]) := by
  have hhead : r.head? ≠ some ' ' := by
    cases r with
    | nil => simp
    | cons c t =>
      have hc := hr c t rfl
      intro h
      simp at h
      subst h
      revert hc
      decide
  have h1 := skip_spaces_append body r hhead
  have h2 := scan_eol_append (skip_spaces body) r
    (fun c hc => hbody c (mem_of_mem_skip_spaces body c hc)) hr
  rw [hdr_loop, strchr_append ':' nm _ hnm]
  simp only [h1, h2, alloc_ok, Bool.true_eq_false, if_false, or_self]

/-- One iteration of the loop on a line: `nm` is the text before the first
colon, `body` the rest of the line, `eols` the line-break characters after it
and `rest` what follows them.  When no allocation fails the iteration appends
the entry `(nm, body without its leading spaces)` and continues at `rest`. -/
theorem hdr_loop_step (fuel k : Nat) (l : List ws_hdr) (nm body eols rest : List Char)
    (hnm : ':' ∉ nm) (hbody : ∀ c ∈ body, c ≠ '\r' ∧ c ≠ '\n')
    (heols : ∀ c ∈ eols, c = '\r' ∨ c = '\n')
    (hrest : ∀ c t, rest = c :: t → ¬ (c = '\r' ∨ c = '\n'))
    (hsep : eols ≠ [] ∨ rest = []) :
    hdr_loop alloc_ok (fuel + 1) k (nm ++ ':' :: (body ++ (eols ++ rest))) l =
      hdr_loop alloc_ok fuel (k + 3) rest (l ++ [⟨nm, skip_spaces body⟩]) := by
  have hstart : ∀ c t, eols ++ rest = c :: t → c = '\r' ∨ c = '\n' := by
    intro c t h
    cases eols with
    | nil =>
      cases hsep with
      | inl h1 => exact absurd rfl h1
      | inr h1 => simp [h1] at h
    | cons e es =>
      simp at h
      exact h.1 ▸ heols e (by simp)
  rw [hdr_loop_line fuel k l nm body (eols ++ rest) hnm hbody hstart,
    skip_eol_append eols rest heols hrest]

/-! ### The header loop on a well-formed string -/

theorem line_break_chars_eol (b : line_break) : ∀ c ∈ b.chars, c = '\r' ∨ c = '\n' := by
  cases b <;> simp [line_break.chars]

theorem line_break_chars_ne_nil (b : line_break) : b.chars ≠ [] := by
  cases b <;> simp [line_break.chars]

theorem header_string_head (trailing : Bool) (e : List Char × List Char × line_break)
    (es : List (List Char × List Char × line_break)) (hn : wf_name e.1) :
    ∀ c t, header_string trailing (e :: es) = c :: t → ¬ (c = '\r' ∨ c = '\n') := by
  intro c t h
  obtain ⟨n, v, b⟩ := e
  have hc : c = ':' ∨ c ∈ n := by
    cases n with
    | nil =>
      cases es <;> simp [header_string, header_line] at h <;> exact Or.inl h.1.symm
    | cons x xs =>
      cases es <;> simp [header_string, header_line] at h <;> exact Or.inr (by simp [h.1])
  rcases hc with hc | hc
  · subst hc
    decide
  · rintro (h1 | h1)
    · exact hn.2.1 (h1 ▸ hc)
    · exact hn.2.2 (h1 ▸ hc)

theorem header_string_length (trailing : Bool) :
    ∀ es : List (List Char × List Char × line_break),
      es.length ≤ (header_string trailing es).length
  | [] => by simp
  | [(n, v, b)] => by
    simp [header_string, header_line]
    omega
  | (n, v, b) :: e :: es => by
    have ih := header_string_length trailing (e :: es)
    simp only [header_string, header_line, List.length_append, List.length_cons] at ih ⊢
    omega

/-- When no allocation fails, the loop turns the header string of well-formed
entries into exactly those entries, in order. -/
theorem hdr_loop_header_string (trailing : Bool) :
    ∀ (es : List (List Char × List Char × line_break)) (fuel k : Nat) (l : List ws_hdr),
      es.length < fuel → (∀ e ∈ es, wf_name e.1 ∧ wf_value e.2.1) →
      hdr_loop alloc_ok fuel k (header_string trailing es) l =
        some (Except.ok (l ++ entries_of es))
  | [], 0, _, _, h, _ => by simp at h
  | [], fuel + 1, k, l, _, _ => by
    simp [header_string, hdr_loop, strchr, entries_of]
  | [(n, v, b)], 0, _, _, h, _ => by simp at h
  | [(n, v, b)], fuel + 1, k, l, h, hwf => by
    obtain ⟨hn, hv⟩ := hwf (n, v, b) (by simp)
    have hstr : header_string trailing [(n, v, b)] =
        n ++ ':' :: ((' ' :: v) ++ ((if trailing then b.chars else []) ++ [])) := by
      simp [header_string, header_line]
    have hstep := hdr_loop_step fuel k l n (' ' :: v) (if trailing then b.chars else []) []
      hn.1
      (by
        intro c hc
        rcases List.mem_cons.1 hc with h1 | h1
        · subst h1
          decide
        · exact ⟨fun e => hv.1 (e ▸ h1), fun e => hv.2.1 (e ▸ h1)⟩)
      (by
        intro c hc
        by_cases ht : trailing = true
        · simp only [ht, if_true] at hc
          exact line_break_chars_eol b c hc
        · simp [ht] at hc)
      (by intro c t h1; simp at h1)
      (Or.inr rfl)
    have hsk : skip_spaces (' ' :: v) = v := by
      simp [skip_spaces, skip_spaces_eq_self v hv.2.2]
    rw [hstr, hstep, hsk]
    have hf : 0 < fuel := by simp at h; omega
    obtain ⟨f, rfl⟩ : ∃ f, fuel = f + 1 := ⟨fuel - 1, by omega⟩
    simp [hdr_loop, strchr, entries_of]
  | (n, v, b) :: e :: es, 0, _, _, h, _ => by simp at h
  | (n, v, b) :: e :: es, fuel + 1, k, l, h, hwf => by
    obtain ⟨hn, hv⟩ := hwf (n, v, b) (by simp)
    have hwf1 : ∀ x ∈ e :: es, wf_name x.1 ∧ wf_value x.2.1 :=
      fun x hx => hwf x (List.mem_cons_of_mem _ hx)
    have hstr : header_string trailing ((n, v, b) :: e :: es) =
        n ++ ':' :: ((' ' :: v) ++ (b.chars ++ header_string trailing (e :: es))) := by
      simp [header_string, header_line]
    have hstep := hdr_loop_step fuel k l n (' ' :: v) b.chars
      (header_string trailing (e :: es)) hn.1
      (by
        intro c hc
        rcases List.mem_cons.1 hc with h1 | h1
        · subst h1
          decide
        · exact ⟨fun e => hv.1 (e ▸ h1), fun e => hv.2.1 (e ▸ h1)⟩)
      (line_break_chars_eol b)
      (header_string_head trailing e es (hwf1 e (by simp)).1)
      (Or.inl (line_break_chars_ne_nil b))
    have hsk : skip_spaces (' ' :: v) = v := by
      simp [skip_spaces, skip_spaces_eq_self v hv.2.2]
    have ih := hdr_loop_header_string trailing (e :: es) fuel (k + 3) (l ++ [⟨n, v⟩])
      (by simp at h ⊢; omega) hwf1
    rw [hstr, hstep, hsk, ih]
    simp [entries_of]

/-! ### Lines and the header loop -/

theorem spec_lines_aux_true (cs : List Char) :
    spec_lines_aux true cs = spec_lines_aux false (drop_lf cs) := by
  cases cs with
  | nil => simp [spec_lines_aux, drop_lf]
  | cons d u =>
    by_cases hd : d = '\n'
    · subst hd
      simp [spec_lines_aux, drop_lf]
    · simp [spec_lines_aux, drop_lf, hd]

theorem spec_lines_aux_first :
    ∀ s : List Char, spec_lines_aux false s =
      (scan_eol s).1 ::
        (if (scan_eol s).2 = [] then [] else spec_lines_aux false (one_break (scan_eol s).2))
  | [] => by simp [spec_lines_aux, scan_eol]
  | c :: cs => by
    by_cases h1 : c = '\r'
    · subst h1
      simp [spec_lines_aux, scan_eol, one_break, spec_lines_aux_true]
    · by_cases h2 : c = '\n'
      · subst h2
        simp [spec_lines_aux, scan_eol, one_break]
      · have ih := spec_lines_aux_first cs
        simp [spec_lines_aux, scan_eol, h1, h2, ih]

theorem scan_eol_split :
    ∀ s : List Char, s = (scan_eol s).1 ++ (scan_eol s).2 ∧
      (∀ c ∈ (scan_eol s).1, c ≠ '\r' ∧ c ≠ '\n') ∧
      (∀ c t, (scan_eol s).2 = c :: t → c = '\r' ∨ c = '\n')
  | [] => by simp [scan_eol]
  | x :: xs => by
    by_cases hx : x = '\r' ∨ x = '\n'
    · simp only [scan_eol, hx, if_true]
      refine ⟨by simp, by simp, ?_⟩
      intro c t h
      simp at h
      exact h.1 ▸ hx
    · obtain ⟨h1, h2, h3⟩ := scan_eol_split xs
      simp only [scan_eol, hx, if_false]
      refine ⟨by simpa using h1, ?_, h3⟩
      intro c hc
      rcases List.mem_cons.1 hc with e | e
      · subst e
        tauto
      · exact h2 c e

theorem no_colon_of_lines :
    ∀ (s : List Char) (b : Bool), (∀ ln ∈ spec_lines_aux b s, ':' ∉ ln) → ':' ∉ s
  | [], _, _ => by simp
  | c :: cs, b, h => by
    by_cases h1 : c = '\r'
    · subst h1
      simp only [spec_lines_aux, if_true] at h
      have := no_colon_of_lines cs true (fun ln hl => h ln (List.mem_cons_of_mem _ hl))
      simp [this]
    · by_cases h2 : c = '\n'
      · subst h2
        have hcs : ':' ∉ cs := by
          cases b with
          | true =>
            simp [spec_lines_aux] at h
            exact no_colon_of_lines cs false (by simpa using h)
          | false =>
            simp [spec_lines_aux] at h
            exact no_colon_of_lines cs false (by simpa using h)
        simp [hcs]
      · simp only [spec_lines_aux, h1, h2, if_false] at h
        cases hl : spec_lines_aux false cs with
        | nil =>
          have := spec_lines_aux_first cs
          simp [hl] at this
        | cons ln lns =>
          simp only [hl] at h
          have h0 := h (c :: ln) (by simp)
          have hcs : ':' ∉ cs := by
            apply no_colon_of_lines cs false
            intro x hx
            rw [hl] at hx
            rcases List.mem_cons.1 hx with e | e
            · subst e
              exact fun hm => h0 (List.mem_cons_of_mem _ hm)
            · exact h x (List.mem_cons_of_mem _ e)
          intro hm
          rcases List.mem_cons.1 hm with e | e
          · subst e
            exact h0 (by simp)
          · exact hcs e

theorem strchr_of_mem (c : Char) :
    ∀ s : List Char, c ∈ s → ∃ pre post, s = pre ++ c :: post ∧ c ∉ pre
  | [], h => by simp at h
  | x :: xs, h => by
    by_cases hx : x = c
    · exact ⟨[], xs, by simp [hx], by simp⟩
    · have hxs : c ∈ xs := by
        rcases List.mem_cons.1 h with e | e
        · exact absurd e.symm hx
        · exact e
      obtain ⟨pre, post, h1, h2⟩ := strchr_of_mem c xs hxs
      refine ⟨x :: pre, post, by simp [h1], ?_⟩
      intro hm
      rcases List.mem_cons.1 hm with e | e
      · exact hx e.symm
      · exact h2 e

theorem skip_spaces_eq_dropWhile :
    ∀ s : List Char, s.dropWhile (fun c => c == ' ') = skip_spaces s
  | [] => by simp [skip_spaces]
  | x :: xs => by
    by_cases hx : x = ' '
    · simp [skip_spaces, hx, List.dropWhile, skip_spaces_eq_dropWhile xs]
    · have hb : (x == ' ') = false := by simpa using hx
      simp [skip_spaces, hx, List.dropWhile, hb]

theorem line_entry_split (nm body : List Char) (hnm : ':' ∉ nm) :
    line_entry (nm ++ ':' :: body) = ⟨nm, skip_spaces body⟩ := by
  have h1 : ∀ (n : List Char), ':' ∉ n →
      (n ++ ':' :: body).takeWhile (fun c => c != ':') = n ∧
      (n ++ ':' :: body).dropWhile (fun c => c != ':') = ':' :: body := by
    intro n
    induction n with
    | nil => intro _; simp [List.takeWhile, List.dropWhile]
    | cons x xs ih =>
      intro h
      have hx : x ≠ ':' := fun e => h (by simp [e])
      have hxs : ':' ∉ xs := fun e => h (by simp [e])
      obtain ⟨i1, i2⟩ := ih hxs
      have hb : (x != ':') = true := by simpa using hx
      simp [List.takeWhile, List.dropWhile, hb, i1, i2]
  obtain ⟨h2, h3⟩ := h1 nm hnm
  simp [line_entry, h2, h3, skip_spaces_eq_dropWhile]

theorem drop_lf_length : ∀ t : List Char, (drop_lf t).length ≤ t.length
  | [] => by simp [drop_lf]
  | d :: u => by
    by_cases hd : d = '\n' <;> simp [drop_lf, hd]

theorem one_break_length : ∀ r : List Char, r ≠ [] → (one_break r).length < r.length
  | [], h => absurd rfl h
  | c :: t, _ => by
    by_cases hc : c = '\r'
    · have := drop_lf_length t
      simp only [one_break, hc, if_true, List.length_cons]
      omega
    · simp [one_break, hc]

theorem skip_eol_one_break :
    ∀ (c : Char) (t : List Char), (c = '\r' ∨ c = '\n') →
      skip_eol (c :: t) = skip_eol (one_break (c :: t)) := by
  intro c t hc
  by_cases h1 : c = '\r'
  · subst h1
    cases t with
    | nil => simp [skip_eol, one_break, drop_lf]
    | cons d u =>
      by_cases hd : d = '\n'
      · subst hd
        simp [skip_eol, one_break, drop_lf]
      · simp [skip_eol, one_break, drop_lf, hd]
  · have h2 : c = '\n' := by tauto
    subst h2
    simp [skip_eol, one_break]

theorem mem_of_mem_skip_eol : ∀ (a : List Char) (c : Char), c ∈ skip_eol a → c ∈ a
  | [], c, h => by simp [skip_eol] at h
  | x :: xs, c, h => by
    by_cases hx : x = '\r' ∨ x = '\n'
    · simp only [skip_eol, hx, if_true] at h
      exact List.mem_cons_of_mem _ (mem_of_mem_skip_eol xs c h)
    · simpa [skip_eol, hx] using h

theorem hdr_loop_no_colon (fuel k : Nat) (l : List ws_hdr) (s : List Char) (hs : ':' ∉ s) :
    hdr_loop alloc_ok (fuel + 1) k s l = some (Except.ok l) := by
  rw [hdr_loop, strchr_none ':' s hs]

theorem claimed_headers_no_colon (s : List Char) (h : ':' ∉ (scan_eol s).1) :
    claimed_headers s = [] := by
  have hb : has_colon (scan_eol s).1 = false := by simpa [has_colon] using h
  simp [claimed_headers, spec_lines, spec_lines_aux_first s, List.takeWhile, hb]

/-- When no line after the first line without a colon contains a colon, the
loop (no allocation failing) builds exactly the entries of the lines that
precede that line. -/
theorem hdr_loop_claimed :
    ∀ (fuel : Nat) (s : List Char) (k : Nat) (l : List ws_hdr), s.length < fuel →
      (∀ ln ∈ (spec_lines s).dropWhile has_colon, ':' ∉ ln) →
      hdr_loop alloc_ok fuel k s l = some (Except.ok (l ++ claimed_headers s))
  | 0, _, _, _, h, _ => by omega
  | fuel + 1, s, k, l, hlen, H => by
    obtain ⟨hsplit, hline, hr⟩ := scan_eol_split s
    have hfirst := spec_lines_aux_first s
    by_cases hc : ':' ∈ (scan_eol s).1
    · obtain ⟨nm, body, hln, hnm⟩ := strchr_of_mem ':' _ hc
      have hb : has_colon (scan_eol s).1 = true := by simpa [has_colon] using hc
      have hbody : ∀ c ∈ body, c ≠ '\r' ∧ c ≠ '\n' :=
        fun c hm => hline c (by rw [hln]; simp [hm])
      have hs : s = nm ++ ':' :: (body ++ (scan_eol s).2) := by
        conv_lhs => rw [hsplit, hln]
        simp
      have hstep := hdr_loop_line fuel k l nm body (scan_eol s).2 hnm hbody hr
      rw [← hs] at hstep
      rw [hstep]
      have hentry : line_entry (scan_eol s).1 = ⟨nm, skip_spaces body⟩ := by
        rw [hln]
        exact line_entry_split nm body hnm
      have hpos : 0 < fuel := by
        have : 0 < s.length := by rw [hs]; simp
        omega
      obtain ⟨f, rfl⟩ : ∃ f, fuel = f + 1 := ⟨fuel - 1, by omega⟩
      cases hrest : (scan_eol s).2 with
      | nil =>
        have hcl : claimed_headers s = [⟨nm, skip_spaces body⟩] := by
          simp [claimed_headers, spec_lines, hfirst, hrest, List.takeWhile, hb, hentry]
        simp [hcl, skip_eol, hdr_loop, strchr]
      | cons c t =>
        have hceol := hr c t hrest
        have hlines : spec_lines s = (scan_eol s).1 :: spec_lines (one_break (c :: t)) := by
          simp [spec_lines, hfirst, hrest]
        have hcl : claimed_headers s =
            ⟨nm, skip_spaces body⟩ :: claimed_headers (one_break (c :: t)) := by
          simp [claimed_headers, hlines, List.takeWhile, hb, hentry]
        have H1 : ∀ ln ∈ (spec_lines (one_break (c :: t))).dropWhile has_colon, ':' ∉ ln := by
          intro ln hm
          apply H ln
          rw [hlines]
          simpa [List.dropWhile, hb] using hm
        have hlen1 : (one_break (c :: t)).length < f + 1 := by
          have h1 := one_break_length (c :: t) (by simp)
          have h2 := scan_eol_length s
          rw [hrest] at h2
          omega
        have ih := hdr_loop_claimed (f + 1) (one_break (c :: t)) (k + 3)
          (l ++ [⟨nm, skip_spaces body⟩]) hlen1 H1
        rw [hcl, skip_eol_one_break c t hceol]
        cases hs1 : one_break (c :: t) with
        | nil =>
          rw [hs1] at ih
          simpa [skip_eol] using ih
        | cons d u =>
          by_cases hd : d = '\r' ∨ d = '\n'
          · have hfl : (scan_eol (d :: u)).1 = [] := by simp [scan_eol, hd]
            have hall : ∀ ln ∈ spec_lines (d :: u), ':' ∉ ln := by
              intro ln hm
              rw [hs1] at H1
              apply H1 ln
              have hb0 : has_colon (scan_eol (d :: u)).1 = false := by
                rw [hfl]
                rfl
              have hf1 := spec_lines_aux_first (d :: u)
              rw [spec_lines, hf1, List.dropWhile, hb0]
              rw [spec_lines, hf1] at hm
              exact hm
            have hnc : ':' ∉ (d :: u) := no_colon_of_lines (d :: u) false hall
            have hnc1 : ':' ∉ skip_eol (d :: u) :=
              fun hm => hnc (mem_of_mem_skip_eol _ _ hm)
            have hcl1 : claimed_headers (d :: u) = [] :=
              claimed_headers_no_colon (d :: u) (by rw [hfl]; simp)
            rw [hdr_loop_no_colon f _ _ _ hnc1, hcl1]
          · rw [hs1] at ih
            simpa [skip_eol, hd] using ih
    · have hb : has_colon (scan_eol s).1 = false := by simpa [has_colon] using hc
      have hall : ∀ ln ∈ spec_lines s, ':' ∉ ln := by
        intro ln hm
        apply H ln
        rw [spec_lines, hfirst, List.dropWhile, hb]
        rw [spec_lines, hfirst] at hm
        exact hm
      have hnc : ':' ∉ s := no_colon_of_lines s false hall
      rw [hdr_loop_no_colon fuel k l s hnc, claimed_headers_no_colon s hc]
      simp

/-- The function `ws_ep_setopt_headers` returns, on every input. -/
theorem ws_ep_setopt_headers_returns (ep : Option ws_ep) (v : List Char) (alloc : Nat → Bool) :
    ∃ r, ws_ep_setopt_headers ep v alloc = some r := by
  cases ep with
  | none => exact ⟨_, rfl⟩
  | some e =>
    unfold ws_ep_setopt_headers
    by_cases h0 : alloc 0 = false
    · exact ⟨(NNG_ENOMEM, some e), by simp [h0]⟩
    · obtain ⟨r, hr⟩ := hdr_loop_total alloc ((nni_strdup v).length + 1) 1 (nni_strdup v) []
        (Nat.lt_succ_self _)
      cases r with
      | error rv => exact ⟨(rv, some e), by simp [h0, hr]⟩
      | ok l => exact ⟨(0, some { e with headers := l }), by simp [h0, hr]⟩

/-- The outcome of `ws_ep_setopt_headers` on an endpoint: either an error that
leaves the endpoint as it was, or 0 with the header list replaced by the list
parsed from the string. -/
theorem ws_ep_setopt_headers_cases (ep : ws_ep) (v : List Char) (alloc : Nat → Bool) :
    ws_ep_setopt_headers (some ep) v alloc = some (NNG_ENOMEM, some ep) ∨
    ws_ep_setopt_headers (some ep) v alloc =
      some (0, some { ep with headers := parsed_headers v }) := by
  unfold ws_ep_setopt_headers
  by_cases h0 : alloc 0 = false
  · exact Or.inl (by simp [h0])
  · obtain ⟨r, hr⟩ := hdr_loop_total alloc ((nni_strdup v).length + 1) 1 (nni_strdup v) []
      (Nat.lt_succ_self _)
    cases r with
    | error rv =>
      have := hdr_loop_error alloc _ _ _ _ rv hr
      subst this
      exact Or.inl (by simp [h0, hr])
    | ok l =>
      have h1 := hdr_loop_ok_indep alloc _ 1 1 _ _ _ hr
      have h2 := parsed_headers_eq v 1
      rw [h1] at h2
      have hl : l = parsed_headers v := by
        injection h2 with h2
        injection h2
      exact Or.inr (by simp [h0, hr, hl])

/-- When no allocation fails `ws_ep_setopt_headers` returns 0 and installs the
parsed list. -/
theorem ws_ep_setopt_headers_ok (ep : ws_ep) (v : List Char) (alloc : Nat → Bool)
    (hmem : ∀ i, alloc i = true) :
    ws_ep_setopt_headers (some ep) v alloc =
      some (0, some { ep with headers := parsed_headers v }) := by
  have ha : alloc = alloc_ok := funext hmem
  subst ha
  unfold ws_ep_setopt_headers
  simp [alloc_ok, parsed_headers_eq v 1]

/-- C2: for entries whose names contain no colon, CR or LF and whose values
contain no CR or LF and do not start with a space, the string of the lines
`name: value` joined by CR, LF or CRLF, with or without a final line break, is
parsed by `ws_ep_setopt_headers` (no allocation failing) into exactly those
entries, in the original order: the call returns 0 and the header list of the
endpoint is the list of the N pairs. -/
theorem ws_ep_setopt_headers_well_formed (ep : ws_ep) (v : List Char) (alloc : Nat → Bool)
    (trailing : Bool) (es : List (List Char × List Char × line_break))
    (hv : nni_strdup v = header_string trailing es)
    (hwf : ∀ e ∈ es, wf_name e.1 ∧ wf_value e.2.1)
    (hmem : ∀ i, alloc i = true) :
    ws_ep_setopt_headers (some ep) v alloc =
      some (0, some { ep with headers := entries_of es }) ∧
    (entries_of es).length = es.length ∧
    ∀ i (h : i < es.length), (entries_of es)[i]? = some ⟨es[i].1, es[i].2.1⟩ := by
  refine ⟨?_, by simp [entries_of], ?_⟩
  · rw [ws_ep_setopt_headers_ok ep v alloc hmem]
    have h1 := parsed_headers_eq v 1
    have h2 := hdr_loop_header_string trailing es ((nni_strdup v).length + 1) 1 []
      (by
        have := header_string_length trailing es
        rw [hv]
        omega)
      hwf
    rw [← hv, h1] at h2
    have hl : parsed_headers v = entries_of es := by
      have h3 := Except.ok.inj (Option.some.inj h2)
      simpa using h3
    rw [hl]
  · intro i h
    simp [entries_of, h]

/-- C2 at a concrete input: the buffer `sample_buffer` holds
`Host: a b` CRLF `X: 1:2` LF. -/
theorem ws_ep_setopt_headers_well_formed_witness :
    ws_ep_setopt_headers (some dial_ep) sample_buffer alloc_ok =
      some (0, some { dial_ep with
        headers := [⟨"Host".toList, "a b".toList⟩, ⟨"X".toList, "1:2".toList⟩] }) :=
  (ws_ep_setopt_headers_well_formed dial_ep sample_buffer alloc_ok true sample_entries
    (by decide) (by decide) (fun _ => rfl)).1

/-- C4, as amended: for every header string in which no line after the first
line without a colon contains a colon, `ws_ep_setopt_headers` (no allocation
failing) returns 0 and the header list consists exactly of the entries of the
lines that precede the first line without a colon; that line and all later
lines contribute nothing. -/
theorem ws_ep_setopt_headers_colonless_tail (ep : ws_ep) (v : List Char)
    (alloc : Nat → Bool) (hmem : ∀ i, alloc i = true)
    (htail : ∀ ln ∈ (spec_lines (nni_strdup v)).dropWhile has_colon, ':' ∉ ln) :
    ws_ep_setopt_headers (some ep) v alloc =
      some (0, some { ep with headers := claimed_headers (nni_strdup v) }) := by
  rw [ws_ep_setopt_headers_ok ep v alloc hmem]
  have h1 := parsed_headers_eq v 1
  have h2 := hdr_loop_claimed ((nni_strdup v).length + 1) (nni_strdup v) 1 []
    (Nat.lt_succ_self _) htail
  rw [h1] at h2
  have h3 := Except.ok.inj (Option.some.inj h2)
  have hl : parsed_headers v = claimed_headers (nni_strdup v) := by simpa using h3
  rw [hl]

/-- C4, as amended, at a concrete input: `colonless_tail` has the line
`a:  b c` followed by the lines `foo` and `bar`. -/
theorem ws_ep_setopt_headers_colonless_tail_witness :
    ws_ep_setopt_headers (some dial_ep) colonless_tail alloc_ok =
      some (0, some { dial_ep with headers := [⟨"a".toList, "b c".toList⟩] }) := by
  have h := ws_ep_setopt_headers_colonless_tail dial_ep colonless_tail alloc_ok
    (fun _ => rfl) (by decide)
  rw [h]
  decide

/-- C4 as stated fails: in `colonless_first` the first line `foo` has no
colon, so the claim gives the empty header list, but `ws_ep_setopt_headers`
looks for the next colon across the line break and builds one entry whose name
is `foo`, LF, `bar` and whose value is `baz`. -/
theorem ws_ep_setopt_headers_colonless_first :
    spec_lines colonless_first = ["foo".toList, "bar: baz".toList] ∧
    (∃ ln ∈ spec_lines colonless_first, ':' ∉ ln) ∧
    claimed_headers colonless_first = [] ∧
    ws_ep_setopt_headers (some dial_ep) colonless_first alloc_ok =
      some (0, some { dial_ep with headers := [⟨"foo\nbar".toList, "baz".toList⟩] }) ∧
    ws_ep_setopt_headers (some dial_ep) colonless_first alloc_ok ≠
      some (0, some { dial_ep with headers := claimed_headers colonless_first }) := by
  decide

/-- C3: for a NUL-terminated option string shorter than `sz`, setting request
headers on a Listen endpoint and setting response headers on a Dial endpoint
return `NNG_EREADONLY` whatever the string is and leave the endpoint alone;
setting request headers on a Dial endpoint and response headers on a Listen
endpoint return 0 (no allocation failing) for every string, in particular
for every well-formed header string. -/
theorem ws_ep_setopt_hdrs_direction (ep : ws_ep) (v : List Char) (sz : Nat)
    (alloc : Nat → Bool) (hsz : nni_strnlen v sz < sz) :
    (ep.mode = ep_mode.NNI_EP_MODE_LISTEN →
      ws_ep_setopt_reqhdrs (some ep) v sz alloc = some (NNG_EREADONLY, some ep)) ∧
    (ep.mode = ep_mode.NNI_EP_MODE_DIAL →
      ws_ep_setopt_reshdrs (some ep) v sz alloc = some (NNG_EREADONLY, some ep)) ∧
    (ep.mode = ep_mode.NNI_EP_MODE_DIAL → (∀ i, alloc i = true) →
      ws_ep_setopt_reqhdrs (some ep) v sz alloc =
        some (0, some { ep with headers := parsed_headers v })) ∧
    (ep.mode = ep_mode.NNI_EP_MODE_LISTEN → (∀ i, alloc i = true) →
      ws_ep_setopt_reshdrs (some ep) v sz alloc =
        some (0, some { ep with headers := parsed_headers v })) := by
  have hge : ¬ nni_strnlen v sz ≥ sz := by omega
  refine ⟨?_, ?_, ?_, ?_⟩
  · intro hm
    simp [ws_ep_setopt_reqhdrs, hge, hm]
  · intro hm
    simp [ws_ep_setopt_reshdrs, hge, hm]
  · intro hm hmem
    have hne : ¬ ep.mode = ep_mode.NNI_EP_MODE_LISTEN := by rw [hm]; decide
    simp only [ws_ep_setopt_reqhdrs, hge, hne, if_false]
    exact ws_ep_setopt_headers_ok ep v alloc hmem
  · intro hm hmem
    have hne : ¬ ep.mode = ep_mode.NNI_EP_MODE_DIAL := by rw [hm]; decide
    simp only [ws_ep_setopt_reshdrs, hge, hne, if_false]
    exact ws_ep_setopt_headers_ok ep v alloc hmem

/-- C3 at a concrete input: the well-formed `sample_buffer` with `sz = 32`, on
the Listen endpoint `listen_ep`. -/
theorem ws_ep_setopt_hdrs_direction_witness :
    nni_strnlen sample_buffer 32 < 32 ∧
    ws_ep_setopt_reqhdrs (some listen_ep) sample_buffer 32 alloc_ok =
      some (NNG_EREADONLY, some listen_ep) ∧
    ws_ep_setopt_reshdrs (some listen_ep) sample_buffer 32 alloc_ok =
      some (0, some { listen_ep with headers := parsed_headers sample_buffer }) :=
  have h := ws_ep_setopt_hdrs_direction listen_ep sample_buffer 32 alloc_ok (by decide)
  ⟨by decide, h.1 rfl, h.2.2.2 rfl (fun _ => rfl)⟩

/-- C5: setting the header option is all-or-nothing.  `ws_ep_setopt_headers`
and its two wrappers always return; when the value returned is not 0
(`NNG_ENOMEM`, `NNG_EINVAL` or `NNG_EREADONLY`) the endpoint, and so its header
list, is unchanged; when it is 0 the header list is exactly the list parsed
from the new string, which does not depend on the previous list. -/
theorem ws_ep_setopt_headers_all_or_nothing (ep : ws_ep) (v : List Char) (sz : Nat)
    (alloc : Nat → Bool) :
    (∃ rv, ws_ep_setopt_headers (some ep) v alloc =
        some (rv, some (if rv = 0 then { ep with headers := parsed_headers v } else ep)) ∧
      (rv = 0 ∨ rv = NNG_ENOMEM)) ∧
    (∃ rv, ws_ep_setopt_reqhdrs (some ep) v sz alloc =
        some (rv, some (if rv = 0 then { ep with headers := parsed_headers v } else ep)) ∧
      (rv = 0 ∨ rv = NNG_ENOMEM ∨ rv = NNG_EINVAL ∨ rv = NNG_EREADONLY)) ∧
    (∃ rv, ws_ep_setopt_reshdrs (some ep) v sz alloc =
        some (rv, some (if rv = 0 then { ep with headers := parsed_headers v } else ep)) ∧
      (rv = 0 ∨ rv = NNG_ENOMEM ∨ rv = NNG_EINVAL ∨ rv = NNG_EREADONLY)) := by
  have hbase : ∃ rv, ws_ep_setopt_headers (some ep) v alloc =
        some (rv, some (if rv = 0 then { ep with headers := parsed_headers v } else ep)) ∧
      (rv = 0 ∨ rv = NNG_ENOMEM) := by
    rcases ws_ep_setopt_headers_cases ep v alloc with h | h
    · exact ⟨NNG_ENOMEM, by simp [h, NNG_ENOMEM]⟩
    · exact ⟨0, by simp [h]⟩
  refine ⟨hbase, ?_, ?_⟩
  · unfold ws_ep_setopt_reqhdrs
    by_cases hsz : nni_strnlen v sz ≥ sz
    · exact ⟨NNG_EINVAL, by simp [hsz, NNG_EINVAL]⟩
    · by_cases hm : ep.mode = ep_mode.NNI_EP_MODE_LISTEN
      · exact ⟨NNG_EREADONLY, by simp [hsz, hm, NNG_EREADONLY]⟩
      · obtain ⟨rv, h1, h2⟩ := hbase
        refine ⟨rv, ?_, ?_⟩
        · simp only [hsz, hm, if_false]
          exact h1
        · rcases h2 with h2 | h2
          · exact Or.inl h2
          · exact Or.inr (Or.inl h2)
  · unfold ws_ep_setopt_reshdrs
    by_cases hsz : nni_strnlen v sz ≥ sz
    · exact ⟨NNG_EINVAL, by simp [hsz, NNG_EINVAL]⟩
    · by_cases hm : ep.mode = ep_mode.NNI_EP_MODE_DIAL
      · exact ⟨NNG_EREADONLY, by simp [hsz, hm, NNG_EREADONLY]⟩
      · obtain ⟨rv, h1, h2⟩ := hbase
        refine ⟨rv, ?_, ?_⟩
        · simp only [hsz, hm, if_false]
          exact h1
        · rcases h2 with h2 | h2
          · exact Or.inl h2
          · exact Or.inr (Or.inl h2)

/-- C6: completion of the internal receive clears the caller-receive slot; on
success an outstanding caller (as recorded by `ws_pipe_recv`) is completed with
exactly the received message, and with no caller the message is freed and
nothing is completed; on error an outstanding caller is failed with the same
code, and with no caller nothing happens. -/
theorem ws_pipe_recv_cb_spec (p : ws_pipe) (result msg : Nat) :
    (ws_pipe_recv_cb p result msg).1 = { p with user_rxaio := none } ∧
    (∀ a, result = 0 → p.user_rxaio = some a →
      (ws_pipe_recv_cb p result msg).2 = [Effect.aio_finish_msg a msg]) ∧
    (result = 0 → p.user_rxaio = none →
      (ws_pipe_recv_cb p result msg).2 = [Effect.msg_free msg]) ∧
    (∀ a, result ≠ 0 → p.user_rxaio = some a →
      (ws_pipe_recv_cb p result msg).2 = [Effect.aio_finish_error a result]) ∧
    (result ≠ 0 → p.user_rxaio = none → (ws_pipe_recv_cb p result msg).2 = []) ∧
    (∀ a, (ws_pipe_recv p a 0).1.user_rxaio = some a ∧
      (ws_pipe_recv_cb (ws_pipe_recv p a 0).1 0 msg).2 = [Effect.aio_finish_msg a msg]) := by
  refine ⟨?_, ?_, ?_, ?_, ?_, ?_⟩
  · unfold ws_pipe_recv_cb
    by_cases h : result = 0 <;> cases hu : p.user_rxaio <;> simp [h]
  · intro a h hu
    simp [ws_pipe_recv_cb, h, hu]
  · intro h hu
    simp [ws_pipe_recv_cb, h, hu]
  · intro a h hu
    simp [ws_pipe_recv_cb, h, hu]
  · intro h hu
    simp [ws_pipe_recv_cb, h, hu]
  · intro a
    simp [ws_pipe_recv_cb, ws_pipe_recv]

/-- C7: on a Dial endpoint with at most one queued caller `ws_ep_conn_cb`
returns, leaves the queue empty, and: a failed connect fails the queued caller
with the same error; a successful connect (pipe construction succeeding)
completes the queued caller exactly once with a pipe whose session is `ws`; a
successful connect with nobody queued releases the session with `nni_ws_fini`,
builds no pipe and completes nobody. -/
theorem ws_ep_conn_cb_spec (env : pipe_env) (ep : ws_ep) (result ws : Nat)
    (hq : ep.aios.length ≤ 1) :
    ∃ effs, ws_ep_conn_cb env ep result ws = some ({ ep with aios := [] }, effs) ∧
      (∀ a, ep.aios = [a] → result ≠ 0 → effs = [Effect.aio_finish_error a result]) ∧
      (∀ a, ep.aios = [a] → result = 0 →
        env.alloc_struct = true → env.txaio_init = 0 → env.rxaio_init = 0 →
        effs = [Effect.aio_finish_pipe a (pipe_of ep ws)] ∧ (pipe_of ep ws).ws = ws) ∧
      (ep.aios = [] → result = 0 → effs = [Effect.ws_fini ws]) ∧
      (ep.aios = [] → result ≠ 0 → effs = []) := by
  obtain ⟨mode, lproto, rproto, rcvmax, aios, headers⟩ := ep
  match aios, hq with
  | [], _ =>
    by_cases hr : result = 0
    · exact ⟨[Effect.ws_fini ws], by simp [ws_ep_conn_cb, nni_list_first, hr]⟩
    · exact ⟨[], by simp [ws_ep_conn_cb, nni_list_first, hr]⟩
  | [a], _ =>
    by_cases hr : result = 0
    · by_cases h1 : env.alloc_struct = false
      · exact ⟨[Effect.ws_fini ws, Effect.aio_finish_error a NNG_ENOMEM], by
          simp [ws_ep_conn_cb, nni_list_first, nni_aio_list_remove, ws_pipe_init, hr, h1]⟩
      · by_cases h2 : env.txaio_init = 0
        · by_cases h3 : env.rxaio_init = 0
          · exact ⟨[Effect.aio_finish_pipe a (pipe_of ⟨mode, lproto, rproto, rcvmax, [a], headers⟩ ws)],
              by simp [ws_ep_conn_cb, nni_list_first, nni_aio_list_remove, ws_pipe_init, hr, h1,
                h2, h3, pipe_of]⟩
          · exact ⟨[Effect.ws_fini ws, Effect.aio_finish_error a env.rxaio_init], by
              simp [ws_ep_conn_cb, nni_list_first, nni_aio_list_remove, ws_pipe_init, hr, h1,
                h2, h3]⟩
        · exact ⟨[Effect.ws_fini ws, Effect.aio_finish_error a env.txaio_init], by
            simp [ws_ep_conn_cb, nni_list_first, nni_aio_list_remove, ws_pipe_init, hr, h1, h2]⟩
    · exact ⟨[Effect.aio_finish_error a result], by
        simp [ws_ep_conn_cb, nni_list_first, nni_aio_list_remove, hr]⟩
  | _ :: _ :: _, h => simp at h

/-- C7 at a concrete input: the Dial endpoint `dial_ep` (caller 5 queued), a
successful connect delivering session 7. -/
theorem ws_ep_conn_cb_spec_witness :
    dial_ep.aios.length ≤ 1 ∧
    ∃ effs, ws_ep_conn_cb pipe_env_ok dial_ep 0 7 = some ({ dial_ep with aios := [] }, effs) ∧
      (∀ a, dial_ep.aios = [a] → 0 ≠ 0 → effs = [Effect.aio_finish_error a 0]) ∧
      (∀ a, dial_ep.aios = [a] → 0 = 0 →
        pipe_env_ok.alloc_struct = true → pipe_env_ok.txaio_init = 0 →
        pipe_env_ok.rxaio_init = 0 →
        effs = [Effect.aio_finish_pipe a (pipe_of dial_ep 7)] ∧ (pipe_of dial_ep 7).ws = 7) ∧
      (dial_ep.aios = [] → 0 = 0 → effs = [Effect.ws_fini 7]) ∧
      (dial_ep.aios = [] → 0 ≠ 0 → effs = []) :=
  ⟨by decide, ws_ep_conn_cb_spec pipe_env_ok dial_ep 0 7 (by decide)⟩

/-- C1 at the failing input: a Listen endpoint with callers 1 and 2 queued and
a successful accept delivering session 7.  `ws_pipe_init` completes caller 2
with the new pipe and `ws_ep_acc_cb` then completes caller 1 with the same
pipe; the queue is left empty and the accept is not re-armed. -/
theorem ws_ep_acc_cb_two_queued :
    ws_ep_acc_cb pipe_env_ok { listen_ep with aios := [1, 2] } 0 7 =
      ({ listen_ep with aios := [] },
        [Effect.aio_finish_pipe 2 (pipe_of listen_ep 7),
         Effect.aio_finish_pipe 1 (pipe_of listen_ep 7)]) := by
  decide

/-- C8 at the failing input: a Listen endpoint with nothing queued and a
successful accept delivering session 7.  `ws_ep_acc_cb` makes no call at all:
the session is neither closed (`nni_ws_close`) nor released (`nni_ws_fini`). -/
theorem ws_ep_acc_cb_none_queued :
    ws_ep_acc_cb pipe_env_ok listen_ep 0 7 = (listen_ep, []) ∧
    Effect.ws_close 7 ∉ (ws_ep_acc_cb pipe_env_ok listen_ep 0 7).2 ∧
    Effect.ws_fini 7 ∉ (ws_ep_acc_cb pipe_env_ok listen_ep 0 7).2 := by
  decide

/-- C9 at the failing input: on a fresh Listen endpoint, accept request 1
followed by its cancellation leaves the accept operation armed with an empty
queue, and the next accept request issues it a second time. -/
theorem ws_ep_accept_armed_twice :
    ep_run (ep_fresh ep_mode.NNI_EP_MODE_LISTEN 16 17)
        [ep_event.accept 1 0, ep_event.cancel 1 NNG_ECANCELED] =
      some { ep := listen_ep, acc_armed := 1, conn_armed := 0 } ∧
    ep_run (ep_fresh ep_mode.NNI_EP_MODE_LISTEN 16 17)
        [ep_event.accept 1 0, ep_event.cancel 1 NNG_ECANCELED, ep_event.accept 2 0] =
      some { ep := { listen_ep with aios := [2] }, acc_armed := 2, conn_armed := 0 } := by
  decide

/-- C10 at the failing input: cancelling the queued connect request 5 of
`dial_ep` removes it and fails it with the code, but makes no call on the
internal connect operation; the dial stays in flight, and the next connect
request issues a second one. -/
theorem ws_ep_cancel_leaves_dial :
    ws_ep_cancel dial_ep 5 NNG_ECANCELED =
      ({ dial_ep with aios := [] }, [Effect.aio_finish_error 5 NNG_ECANCELED]) ∧
    Effect.aio_cancel internal_aio.connaio NNG_ECANCELED ∉
      (ws_ep_cancel dial_ep 5 NNG_ECANCELED).2 ∧
    ep_run (ep_fresh ep_mode.NNI_EP_MODE_DIAL 16 17)
        [ep_event.connect 5 0, ep_event.cancel 5 NNG_ECANCELED] =
      some { ep := { dial_ep with aios := [] }, acc_armed := 0, conn_armed := 1 } ∧
    ep_run (ep_fresh ep_mode.NNI_EP_MODE_DIAL 16 17)
        [ep_event.connect 5 0, ep_event.cancel 5 NNG_ECANCELED, ep_event.connect 6 0] =
      some { ep := { dial_ep with aios := [6] }, acc_armed := 0, conn_armed := 2 } := by
  decide

end Websocket
